import Mathlib

/-!
A shallow embedding of the EG-Overlay Sphinx extension: the documentation
domain (`docs/_ext/eg_overlay/domain.py`) and the comment-block parsers
(`docs/_ext/eg_overlay/parsers.py`).

Modelling conventions:
* Python strings are Lean `String`s; Python string primitives (`split`,
  `strip`, `str.join`, code-point comparison) are re-implemented below on
  character lists so that they are faithful to Python semantics and
  evaluate inside the kernel.
* A Python value that may be `None` is an `Option`; f-string interpolation
  of such a value is `pyStr` (`None` renders as the string `"None"`).
* Source files are modelled at `\n`-line granularity: a file is its list
  of lines (assumed free of `\r`, which the block regexes tolerate but the
  claims do not concern).
* The registry `env.domaindata['overlay']['objects']` is a `List ObjEntry`
  in insertion (append) order; the two `ref_context` keys used by the
  extension are the fields of `Env`.
-/

/-- Python f-string interpolation of a `str`-or-`None` value:
`None` renders as `"None"`, a string renders as itself. -/
def pyStr : Option String → String
  | none => "None"
  | some s => s

/-- Python `str.split(sep)` with a single-character separator, on a
character list: always returns a non-empty list of (separator-free)
segments, and `''.split('.') == ['']`. -/
def splitChar (c : Char) : List Char → List (List Char)
  | [] => [[]]
  | x :: xs =>
    if x = c then [] :: splitChar c xs
    else
      match splitChar c xs with
      | r :: rs => (x :: r) :: rs
      | [] => [[x]]

/-- Python `s.split('.')` (single-character separator) on a Lean string. -/
def pySplit (c : Char) (s : String) : List String :=
  (splitChar c s.data).map (fun l => String.mk l)

/-- Python `lst[-1]` for a list of strings, totalised with `""`
(the source only applies it to the never-empty result of `split`). -/
def pyLast (l : List String) : String := l.getLastD ""

/-- Python `lst[-2]` for a list of strings, totalised with `""`
(the source only applies it to qualified names, whose `split('.')` always
has at least two segments). -/
def pyIdxLast2 (l : List String) : String := l.reverse.getD 1 ""

/-- Python `str.strip()`: drop leading and trailing whitespace. -/
def pyStrip (s : String) : String :=
  String.mk (((s.data.dropWhile Char.isWhitespace).reverse.dropWhile Char.isWhitespace).reverse)

/-- Python `sep.join(items)`. -/
def pyJoin (sep : String) : List String → String
  | [] => ""
  | [x] => x
  | x :: xs => x ++ sep ++ pyJoin sep xs

/-- Concatenation of a list of strings (used to state output shapes). -/
def concatAll : List String → String
  | [] => ""
  | x :: xs => x ++ concatAll xs

/-- Python string comparison `a <= b`: code-point lexicographic order on
the characters. -/
def lexLe : List Char → List Char → Bool
  | [], _ => true
  | _ :: _, [] => false
  | a :: as, b :: bs =>
    if a.toNat < b.toNat then true
    else if b.toNat < a.toNat then false
    else lexLe as bs

/-- Python `a <= b` on strings. -/
def strLe (a b : String) : Bool := lexLe a.data b.data

/-- One element of `env.domaindata['overlay']['objects']`: the tuple
`(name, dispname, type, docname, anchor, priority)` appended by
`add_target_and_index` of each object directive. -/
structure ObjEntry where
  name : String
  sig : String
  typ : String
  docname : String
  anchor : String
  prio : Nat
  deriving DecidableEq

/-- The slice of the Sphinx build environment the extension touches:
`ref_context['overlay:module']`, `ref_context['overlay:database']`
(`none` models an absent key) and the object registry. -/
structure Env where
  ref_module : Option String
  ref_database : Option String
  objects : List ObjEntry
  deriving DecidableEq

/-- A docutils output node.  The scope-marker directives of the extension
only ever return the empty list of nodes, so the payload is opaque. -/
structure DocutilsNode where
  tag : String
  deriving DecidableEq

/-- `ModuleDirective.run`: `modname = self.arguments[0].strip()`; the
sentinel argument `'None'` pops `ref_context['overlay:module']` (with
default `None`, so popping an absent key is a no-op), otherwise the key is
set to the stripped name; returns the empty node list.  `arg` is the
single required directive argument. -/
def ModuleDirective.run (arg : String) (env : Env) : Env × List DocutilsNode :=
  let modname := pyStrip arg
  if modname = "None" then ({ env with ref_module := none }, [])
  else ({ env with ref_module := some modname }, [])

/-- `DBDirective.run`: the same scope-marker protocol for
`ref_context['overlay:database']`. -/
def DBDirective.run (arg : String) (env : Env) : Env × List DocutilsNode :=
  let dbname := pyStrip arg
  if dbname = "None" then ({ env with ref_database := none }, [])
  else ({ env with ref_database := some dbname }, [])

/-- `ModuleSettingDirective.handle_signature` computes
`self.options.get('module', self.env.ref_context.get('overlay:module'))` —
the explicit `:module:` option if present, else the ambient scope, else
Python `None` — and stores the result in `signode['modname']`.  The
returned value is that attribute value. -/
def ModuleSettingDirective.handle_signature (options_module ref_module : Option String) : Option String :=
  options_module.or ref_module

/-- `ModuleSettingDirective.add_target_and_index`.  `signode_modname`
models the `signode` attribute dict at key `'modname'`: the outer `Option`
is key presence (queried by `signode.get('modname', 'none')`), the inner
`Option` is the stored `str`-or-`None` value.  The anchor and qualified
name interpolate that value with `pyStr` and the tuple is appended to the
registry with priority 0. -/
def ModuleSettingDirective.add_target_and_index (signode_modname : Option (Option String)) (sig docname : String) (objs : List ObjEntry) : List ObjEntry :=
  let modname : Option String := signode_modname.getD (some "none")
  let anchor := "overlay-modsetting-" ++ pyStr modname ++ "-" ++ sig
  let qname := "overlay.modsetting." ++ pyStr modname ++ "." ++ sig
  objs ++ [⟨qname, sig, "modsetting", docname, anchor, 0⟩]

/-- One processing run of the `modsetting` directive, as driven by
`ObjectDescription.run`: `handle_signature` stores `signode['modname']`
(possibly `None`) and, when it does not raise, `add_target_and_index` is
then called on the same `signode` — so the attribute key is always
present. -/
def ModuleSettingDirective.process (options_module ref_module : Option String) (sig docname : String) (objs : List ObjEntry) : List ObjEntry :=
  ModuleSettingDirective.add_target_and_index
    (some (ModuleSettingDirective.handle_signature options_module ref_module)) sig docname objs

/-- `DBTableDirective.handle_signature`:
`self.options.get('database', self.env.ref_context.get('overlay:database'))`,
stored in `signode['dbname']`. -/
def DBTableDirective.handle_signature (options_database ref_database : Option String) : Option String :=
  options_database.or ref_database

/-- `DBTableDirective.add_target_and_index`, with `signode_dbname`
modelling the `signode` attribute dict at key `'dbname'` as for the
module-setting directive. -/
def DBTableDirective.add_target_and_index (signode_dbname : Option (Option String)) (sig docname : String) (objs : List ObjEntry) : List ObjEntry :=
  let dbname : Option String := signode_dbname.getD (some "none")
  let anchor := "overlay-dbtable-" ++ pyStr dbname ++ "-" ++ sig
  let qname := "overlay.dbtable." ++ pyStr dbname ++ "." ++ sig
  objs ++ [⟨qname, sig, "dbtable", docname, anchor, 0⟩]

/-- One processing run of the `dbtable` directive (`handle_signature`
followed by `add_target_and_index` on the same `signode`). -/
def DBTableDirective.process (options_database ref_database : Option String) (sig docname : String) (objs : List ObjEntry) : List ObjEntry :=
  DBTableDirective.add_target_and_index
    (some (DBTableDirective.handle_signature options_database ref_database)) sig docname objs

/-- `EventDirective.add_target_and_index`: events are unscoped. -/
def EventDirective.add_target_and_index (sig docname : String) (objs : List ObjEntry) : List ObjEntry :=
  let anchor := "overlay-event-" ++ sig
  let qname := "overlay.event." ++ sig
  objs ++ [⟨qname, sig, "event", docname, anchor, 0⟩]

/-- `OverlayDomain.get_objects`: yields every registry tuple, in
insertion order. -/
def OverlayDomain.get_objects (objects : List ObjEntry) : List ObjEntry := objects

/-- `OverlayDomain.resolve_xref`.  For the `dbtable` kind the target is
split on dots, the last segment is the table name, the dot-join of the
rest the database name, and a registry entry matches when its type
matches and the last two segments of its qualified name equal those
parts; for every other kind an entry matches by bare-signature and type
equality.  The first match is returned (the observable result of
`make_refnode` is the pair `(todocname, targ)`); with no match the result
is `None`. -/
def OverlayDomain.resolve_xref (objects : List ObjEntry) (typ target : String) : Option (String × String) :=
  let found :=   -- `matches` in the source (a Lean keyword)
    if typ = "dbtable" then
      let targparts := pySplit '.' target
      let targname := pyLast targparts
      let dbname := pyJoin "." targparts.dropLast
      ((OverlayDomain.get_objects objects).filter
        (fun o => o.typ == typ && pyIdxLast2 (pySplit '.' o.name) == dbname
          && pyLast (pySplit '.' o.name) == targname)).map
        (fun o => (o.docname, o.anchor))
    else
      ((OverlayDomain.get_objects objects).filter
        (fun o => o.sig == target && o.typ == typ)).map
        (fun o => (o.docname, o.anchor))
  found.head?

/-- Splits a line list at the first line equal to the closing marker:
`some (before, after)`, or `none` when no closing marker line exists.
This is where the non-greedy `.*?` of the block patterns stops. -/
def splitAtClose (closeM : String) : List String → Option (List String × List String)
  | [] => none
  | l :: ls =>
    if l = closeM then some ([], ls)
    else
      match splitAtClose closeM ls with
      | some (c, r) => some (l :: c, r)
      | none => none

theorem splitAtClose_length (closeM : String) :
    ∀ ls c r, splitAtClose closeM ls = some (c, r) → r.length ≤ ls.length := by
  intro ls
  induction ls with
  | nil => simp [splitAtClose]
  | cons l ls ih =>
    intro c r h
    simp only [splitAtClose] at h
    split at h
    · rw [Option.some.injEq, Prod.mk.injEq] at h
      obtain ⟨h1, h2⟩ := h
      subst h2
      simp
    · cases hs : splitAtClose closeM ls with
      | none => rw [hs] at h; simp at h
      | some p =>
        obtain ⟨c', r'⟩ := p
        rw [hs] at h
        rw [Option.some.injEq, Prod.mk.injEq] at h
        obtain ⟨h1, h2⟩ := h
        subst h2
        have := ih c' r' hs
        simp
        omega

/-- One opening-marker step of the block scan: the regex needs at least
one content line after the opening line (`open\r?\n(content
.*?)\r?\n^close$`), so the first following line is always content — even
when it looks like a closing marker — and content then runs non-greedily
to the first closing marker line; with no closing marker left, nothing
matches.  `rec` continues the scan after the match. -/
def findBlocksOpenStep (closeM : String) (rec : List String → List (List String)) : List String → List (List String)
  | [] => []
  | m :: ms =>
    match splitAtClose closeM ms with
    | some (c, rest) => (m :: c) :: rec rest
    | none => []

/-- `block_pattern.findall` at line granularity, fuelled so that the
recursion is structural: matches are found left to right and are
non-overlapping; a line equal to the opening marker starts a match
attempt, any other line is skipped.  The fuel only bounds the recursion
depth (`findBlocksF_congr`: any fuel at least the input length gives the
same result). -/
def findBlocksF (openM closeM : String) : Nat → List String → List (List String)
  | _, [] => []
  | 0, _ :: _ => []
  | fuel + 1, l :: ls =>
    if l = openM then findBlocksOpenStep closeM (findBlocksF openM closeM fuel) ls
    else findBlocksF openM closeM fuel ls

theorem findBlocksF_congr (openM closeM : String) :
    ∀ (f1 f2 : Nat) (input : List String), input.length ≤ f1 → input.length ≤ f2 →
      findBlocksF openM closeM f1 input = findBlocksF openM closeM f2 input := by
  intro f1
  induction f1 with
  | zero =>
    intro f2 input h1 _
    have hi : input = [] := by cases input <;> simp_all
    subst hi
    cases f2 <;> rfl
  | succ a ih =>
    intro f2 input h1 h2
    cases input with
    | nil => cases f2 <;> rfl
    | cons l ls =>
      cases f2 with
      | zero => simp at h2
      | succ b =>
        simp only [findBlocksF]
        simp only [List.length_cons] at h1 h2
        by_cases hl : l = openM
        · simp only [if_pos hl]
          cases ls with
          | nil => rfl
          | cons m ms =>
            simp only [findBlocksOpenStep]
            cases hsp : splitAtClose closeM ms with
            | some p =>
              obtain ⟨c, rest⟩ := p
              have hr := splitAtClose_length closeM ms c rest hsp
              simp only [hsp]
              simp only [List.length_cons] at h1 h2
              rw [ih b rest (by omega) (by omega)]
            | none => simp [hsp]
        · simp only [if_neg hl]
          exact ih b ls (by omega) (by omega)

/-- `block_pattern.findall` on a source file given as its line list. -/
def findBlocks (openM closeM : String) (input : List String) : List (List String) :=
  findBlocksF openM closeM input.length input

/-- Python `block.splitlines()` applied to a captured block whose text is
the `\n`-join of the line list `c`: a final empty segment corresponds to a
trailing `\n` of the captured text and yields no extra line. -/
def splitlinesPy (c : List String) : List String :=
  if c.getLast? = some "" then c.dropLast else c

/-- `CommentParser.parse` at line granularity: for every found block,
its (split) lines are appended to `rstlines` followed by one empty
separator line; when at least one line was collected, the `\n`-joined
buffer plus a final `'\n'` is handed to the host RST parser (`some …`);
otherwise the host parser is not invoked (`none`). -/
def CommentParser.parse (openM closeM : String) (input : List String) : Option String :=
  let rstlines :=
    (findBlocks openM closeM input).flatMap (fun block => splitlinesPy block ++ [""])
  if rstlines.length > 0 then some (pyJoin "\n" rstlines ++ "\n")
  else none

/-- `LuaCommentParser.block_pattern`, opening marker line. -/
def LuaCommentParser.openMarker : String := "--[[ RST"

/-- `LuaCommentParser.block_pattern`, closing marker line. -/
def LuaCommentParser.closeMarker : String := "]]--"

/-- `CCommentParser.block_pattern`, opening marker line. -/
def CCommentParser.openMarker : String := "/*** RST"

/-- `CCommentParser.block_pattern`, closing marker line. -/
def CCommentParser.closeMarker : String := "*/"

/-- Decomposition of a source file into alternating gap stretches and
found blocks: the blocks occupy pairwise-disjoint marker-delimited
stretches of the input, in textual order, each preceded by its opening
marker line and followed by its closing marker line. -/
inductive BlocksOrdered (openM closeM : String) : List String → List (List String) → Prop
  | nil (gap : List String) : BlocksOrdered openM closeM gap []
  | cons (gap block rest : List String) (blocks : List (List String)) :
      BlocksOrdered openM closeM rest blocks →
      BlocksOrdered openM closeM (gap ++ openM :: (block ++ closeM :: rest)) (block :: blocks)

/-- Sphinx `IndexEntry` tuple in the shape appended by the `generate`
methods: `(name, subtype, docname, anchor, extra, qualifier, descr)`.
The source stores the display name in `name`, `0` in `subtype`, the
owning document in both `docname` and `extra`, the database name (for the
db-table index) in `qualifier`, `''` otherwise, and the object type in
`descr`. -/
structure IndexEntryT where
  name : String
  subtype : Nat
  docname : String
  anchor : String
  extra : String
  qualifier : String
  descr : String
  deriving DecidableEq

/-- `dispname[0].lower()`: the one-character bucket key (ASCII
lowercasing; the source would raise on an empty display name, here the
default `Char` is used). -/
def bucketKey (dispname : String) : String := String.mk [dispname.front.toLower]

/-- `content.setdefault(key, []).append(entry)` on an insertion-ordered
mapping modelled as an association list: append to an existing bucket, or
add a new `(key, [entry])` pair at the end. -/
def addEntry (content : List (String × List IndexEntryT)) (key : String) (e : IndexEntryT) : List (String × List IndexEntryT) :=
  match content with
  | [] => [(key, [e])]
  | (k, es) :: rest =>
    if k = key then (k, es ++ [e]) :: rest
    else (k, es) :: addEntry rest key e

/-- Python `sorted(items, key=lambda item: item[0])` on registry tuples:
the stable ascending sort by qualified name under code-point
comparison. -/
def pySortedObjs (l : List ObjEntry) : List ObjEntry :=
  List.insertionSort (fun a b => strLe a.name b.name = true) l

/-- Python `sorted(content.items())`: ascending by bucket key (the keys
of a dict are distinct, so no further tuple component is compared). -/
def pySortedPairs (l : List (String × List IndexEntryT)) : List (String × List IndexEntryT) :=
  List.insertionSort (fun p q => strLe p.1 q.1 = true) l

/-- Python `sorted(keys)` for plain string keys. -/
def pySortedKeys (l : List String) : List String :=
  List.insertionSort (fun a b => strLe a b = true) l

/-- `ModuleSettingIndex.generate`: filter the registry to `modsetting`
objects, sort by qualified name, bucket by the lowercased first character
of the display name, sort the buckets by key, and return the collapse
flag `True`. -/
def ModuleSettingIndex.generate (objects : List ObjEntry) : List (String × List IndexEntryT) × Bool :=
  let items := pySortedObjs ((OverlayDomain.get_objects objects).filter (fun o => o.typ == "modsetting"))
  let content := items.foldl
    (fun content o => addEntry content (bucketKey o.sig) ⟨o.sig, 0, o.docname, o.anchor, o.docname, "", o.typ⟩) []
  (pySortedPairs content, true)

/-- `DBTableIndex.generate`: as for the module-setting index but for
`dbtable` objects, and each entry carries `name.split('.')[-2]` (the
database name) in the qualifier slot. -/
def DBTableIndex.generate (objects : List ObjEntry) : List (String × List IndexEntryT) × Bool :=
  let items := pySortedObjs ((OverlayDomain.get_objects objects).filter (fun o => o.typ == "dbtable"))
  let content := items.foldl
    (fun content o => addEntry content (bucketKey o.sig)
      ⟨o.sig, 0, o.docname, o.anchor, o.docname, pyIdxLast2 (pySplit '.' o.name), o.typ⟩) []
  (pySortedPairs content, true)

/-- `EventIndex.generate`: as for the module-setting index but for
`event` objects. -/
def EventIndex.generate (objects : List ObjEntry) : List (String × List IndexEntryT) × Bool :=
  let items := pySortedObjs ((OverlayDomain.get_objects objects).filter (fun o => o.typ == "event"))
  let content := items.foldl
    (fun content o => addEntry content (bucketKey o.sig) ⟨o.sig, 0, o.docname, o.anchor, o.docname, "", o.typ⟩) []
  (pySortedPairs content, true)

/-- First-occurrence deduplication of a key list (the key order of a
Python dict built by `setdefault`). -/
def firstKeys : List String → List String
  | [] => []
  | k :: ks => k :: firstKeys (ks.filter (fun k2 => k2 != k))
termination_by l => l.length
decreasing_by
  simp only [List.length_cons]
  exact Nat.lt_succ_of_le (List.length_filter_le _ _)

/-- The Index Generator contract as the specification states it: filter
the registry to the requested kind, sort by qualified name ascending,
bucket by the lowercase first character of the display name — each bucket
listing, in that preserved order, the entries whose display name starts
with its key — emit the buckets with keys sorted ascending together with
the collapse flag `True`; `qualifierOf` is the kind-specific extra label
(the database name for the db-table kind, empty otherwise). -/
def generateSpec (typ : String) (qualifierOf : ObjEntry → String) (objects : List ObjEntry) : List (String × List IndexEntryT) × Bool :=
  let sorted := pySortedObjs (objects.filter (fun o => o.typ == typ))
  let keys := firstKeys (sorted.map (fun o => bucketKey o.sig))
  ((pySortedKeys keys).map
    (fun k => (k, (sorted.filter (fun o => bucketKey o.sig == k)).map
      (fun o => ⟨o.sig, 0, o.docname, o.anchor, o.docname, qualifierOf o, o.typ⟩))),
   true)

/-- A string with no `'.'` character (a bare, undotted name). -/
def dotFree (s : String) : Prop := '.' ∉ s.data

instance (s : String) : Decidable (dotFree s) :=
  inferInstanceAs (Decidable ('.' ∉ s.data))

/-- The arguments of one `dbtable` directive invocation: the explicit
`:database:` option (if any), the ambient database scope (if any), the
signature and the owning document. -/
structure DBTableReg where
  options_database : Option String
  ref_database : Option String
  sig : String
  docname : String

/-- A registry built exclusively through the `dbtable` directive, one
`process` run per element, starting from the empty registry. -/
def DBTableDirective.registryOf (rs : List DBTableReg) : List ObjEntry :=
  rs.foldl (fun objs r => DBTableDirective.process r.options_database r.ref_database r.sig r.docname objs) []

theorem head?_map_filter {α β : Type} (p : α → Bool) (f : α → β) (l : List α) :
    ((l.filter p).map f).head? = (l.find? p).map f := by
  induction l with
  | nil => simp
  | cons a l ih =>
    by_cases h : p a <;> simp [List.filter_cons, List.find?_cons, h, ih]

theorem splitAtClose_eq (closeM : String) :
    ∀ ls c r, splitAtClose closeM ls = some (c, r) → ls = c ++ closeM :: r := by
  intro ls
  induction ls with
  | nil => simp [splitAtClose]
  | cons l ls ih =>
    intro c r h
    simp only [splitAtClose] at h
    split at h
    · rw [Option.some.injEq, Prod.mk.injEq] at h
      obtain ⟨h1, h2⟩ := h
      subst h2; subst h1
      rename_i hl
      simp [hl]
    · cases hs : splitAtClose closeM ls with
      | none => rw [hs] at h; simp at h
      | some p =>
        obtain ⟨c', r'⟩ := p
        rw [hs] at h
        rw [Option.some.injEq, Prod.mk.injEq] at h
        obtain ⟨h1, h2⟩ := h
        subst h2; subst h1
        simp [ih c' r' hs]

theorem findBlocks_nil (openM closeM : String) : findBlocks openM closeM [] = [] := rfl

theorem findBlocks_cons_not {openM closeM l : String} (ls : List String) (h : ¬ l = openM) :
    findBlocks openM closeM (l :: ls) = findBlocks openM closeM ls := by
  simp only [findBlocks, List.length_cons, findBlocksF, if_neg h]

theorem findBlocks_open_nil (openM closeM : String) :
    findBlocks openM closeM [openM] = [] := by
  simp [findBlocks, findBlocksF, findBlocksOpenStep]

theorem findBlocks_open_some {openM closeM m : String} {ms c rest : List String}
    (hsp : splitAtClose closeM ms = some (c, rest)) :
    findBlocks openM closeM (openM :: m :: ms) = (m :: c) :: findBlocks openM closeM rest := by
  have hr := splitAtClose_length closeM ms c rest hsp
  simp only [findBlocks, List.length_cons, findBlocksF, findBlocksOpenStep, hsp]
  simp only [if_pos, ite_true, eq_self_iff_true, if_true]
  rw [findBlocksF_congr openM closeM (ms.length + 1) rest.length rest (by omega) le_rfl]

theorem findBlocks_open_none {openM closeM m : String} {ms : List String}
    (hsp : splitAtClose closeM ms = none) :
    findBlocks openM closeM (openM :: m :: ms) = [] := by
  simp [findBlocks, findBlocksF, findBlocksOpenStep, hsp]

theorem BlocksOrdered.cons_left {openM closeM : String} {ls : List String}
    {bs : List (List String)} (l : String) (h : BlocksOrdered openM closeM ls bs) :
    BlocksOrdered openM closeM (l :: ls) bs := by
  cases h with
  | nil => exact .nil (l :: ls)
  | cons g b r bs h' =>
    have := @BlocksOrdered.cons openM closeM (l :: g) b r bs h'
    simpa using this

theorem findBlocks_ordered (openM closeM : String) (input : List String) :
    BlocksOrdered openM closeM input (findBlocks openM closeM input) := by
  have key : ∀ (n : Nat) (inp : List String), inp.length ≤ n →
      BlocksOrdered openM closeM inp (findBlocks openM closeM inp) := by
    intro n
    induction n with
    | zero =>
      intro inp h
      have hi : inp = [] := by cases inp <;> simp_all
      subst hi
      rw [findBlocks_nil]
      exact .nil []
    | succ n ih =>
      intro inp hlen
      cases inp with
      | nil =>
        rw [findBlocks_nil]
        exact .nil []
      | cons l ls =>
        by_cases hl : l = openM
        · cases ls with
          | nil =>
            rw [hl, findBlocks_open_nil]
            exact .nil _
          | cons m ms =>
            cases hsp : splitAtClose closeM ms with
            | some p =>
              obtain ⟨c, rest⟩ := p
              rw [hl, findBlocks_open_some hsp]
              have hms := splitAtClose_eq closeM ms c rest hsp
              have hr : rest.length ≤ n := by
                have h1 := splitAtClose_length closeM ms c rest hsp
                simp only [List.length_cons] at hlen
                omega
              subst hms
              have := @BlocksOrdered.cons openM closeM
                [] (m :: c) rest _ (ih rest hr)
              simpa using this
            | none =>
              rw [hl, findBlocks_open_none hsp]
              exact .nil _
        · rw [findBlocks_cons_not ls hl]
          have hls : ls.length ≤ n := by
            simp only [List.length_cons] at hlen
            omega
          exact BlocksOrdered.cons_left l (ih ls hls)
  exact key input.length input le_rfl

theorem pyJoin_map_newline :
    ∀ xs : List String, xs ≠ [] →
      pyJoin "\n" xs ++ "\n" = concatAll (xs.map (fun l => l ++ "\n")) := by
  intro xs
  induction xs with
  | nil => simp
  | cons x xs ih =>
    intro _
    cases xs with
    | nil => simp [pyJoin, concatAll, String.append_empty]
    | cons y ys =>
      simp only [pyJoin, List.map_cons, concatAll]
      rw [String.append_assoc, ih (by simp)]
      simp [concatAll, String.append_assoc]

theorem concatAll_append : ∀ a b : List String, concatAll (a ++ b) = concatAll a ++ concatAll b := by
  intro a b
  induction a with
  | nil => simp [concatAll, String.empty_append]
  | cons x xs ih => simp [concatAll, ih, String.append_assoc]

theorem concatAll_map_flatMap (f : List String → List String) (g : String → String) :
    ∀ bs : List (List String),
      concatAll ((bs.flatMap f).map g) = concatAll (bs.map (fun b => concatAll ((f b).map g))) := by
  intro bs
  induction bs with
  | nil => simp [concatAll]
  | cons b bs ih =>
    simp only [List.flatMap_cons, List.map_append, List.map_cons, concatAll_append, concatAll, ih]

/-- Claim C4: for every source text, the Block Extractor output consists of
exactly the found blocks' interior lines in source order — each block's
lines each followed by a newline, each block followed by exactly one
blank-line separator (so the whole is the newline-join of the collected
lines with one trailing newline) — and the blocks decompose the input into
pairwise-disjoint marker-delimited stretches in textual order (never
reordered or deduplicated). -/
theorem block_extractor_output_shape (openM closeM : String) (input : List String) :
    BlocksOrdered openM closeM input (findBlocks openM closeM input)
    ∧ (findBlocks openM closeM input ≠ [] →
        CommentParser.parse openM closeM input
          = some (concatAll ((findBlocks openM closeM input).map
              (fun block => concatAll ((splitlinesPy block).map (fun l => l ++ "\n")) ++ "\n")))) := by
  refine ⟨findBlocks_ordered openM closeM input, ?_⟩
  intro hne
  simp only [CommentParser.parse]
  have hlen : ((findBlocks openM closeM input).flatMap
      (fun block => splitlinesPy block ++ [""])).length > 0 := by
    cases hb : findBlocks openM closeM input with
    | nil => exact absurd hb hne
    | cons b bs => simp
  rw [if_pos hlen]
  congr 1
  rw [pyJoin_map_newline _ (by intro h0; rw [h0] at hlen; simp at hlen)]
  rw [concatAll_map_flatMap (fun block => splitlinesPy block ++ [""]) (fun l => l ++ "\n")]
  refine congrArg concatAll (List.map_congr_left ?_)
  intro b _
  simp [List.map_append, concatAll_append, concatAll, String.empty_append, String.append_empty]

/-- Claim C4, witness: a two-block Lua source file; the parser output is
the two blocks' lines, blank-separated, newline-terminated. -/
theorem block_extractor_output_shape_witness :
    findBlocks LuaCommentParser.openMarker LuaCommentParser.closeMarker
        ["--[[ RST", "a", "b", "]]--", "x", "--[[ RST", "c", "]]--"] ≠ []
    ∧ CommentParser.parse LuaCommentParser.openMarker LuaCommentParser.closeMarker
        ["--[[ RST", "a", "b", "]]--", "x", "--[[ RST", "c", "]]--"]
      = some (concatAll ((findBlocks LuaCommentParser.openMarker LuaCommentParser.closeMarker
          ["--[[ RST", "a", "b", "]]--", "x", "--[[ RST", "c", "]]--"]).map
            (fun block => concatAll ((splitlinesPy block).map (fun l => l ++ "\n")) ++ "\n")))
    ∧ CommentParser.parse LuaCommentParser.openMarker LuaCommentParser.closeMarker
        ["--[[ RST", "a", "b", "]]--", "x", "--[[ RST", "c", "]]--"]
      = some "a\nb\n\nc\n\n" :=
  ⟨by decide,
   (block_extractor_output_shape LuaCommentParser.openMarker LuaCommentParser.closeMarker
     ["--[[ RST", "a", "b", "]]--", "x", "--[[ RST", "c", "]]--"]).2 (by decide),
   by decide⟩

/-- Claim C5: when the block pattern finds zero documentation blocks the
Block Extractor produces no output and the host's full RST parser is never
invoked (the parse result is `none`, and no error is raised — the model is
total). -/
theorem zero_blocks_no_parse (openM closeM : String) (input : List String)
    (h : findBlocks openM closeM input = []) :
    CommentParser.parse openM closeM input = none := by
  simp [CommentParser.parse, h]

/-- Claim C5, witness: a Lua source file with no documentation block. -/
theorem zero_blocks_no_parse_witness :
    findBlocks LuaCommentParser.openMarker LuaCommentParser.closeMarker ["x", "-- y", "z"] = []
    ∧ CommentParser.parse LuaCommentParser.openMarker LuaCommentParser.closeMarker
        ["x", "-- y", "z"] = none :=
  ⟨by decide,
   zero_blocks_no_parse LuaCommentParser.openMarker LuaCommentParser.closeMarker
     ["x", "-- y", "z"] (by decide)⟩

/-- Claim C1, counterexample: a module-setting declaration with no
explicit `:module:` option and no ambient module scope registers the
qualified name `overlay.modsetting.None.timeout` — the scope literal is
`"None"` (the f-string rendering of the absent scope), not `"none"` as
claimed. -/
theorem missing_scope_none_literal_counterexample :
    (ModuleSettingDirective.process none none "timeout" "doc" []).map ObjEntry.name
      = ["overlay.modsetting.None.timeout"]
    ∧ "overlay.modsetting.None.timeout" ≠ "overlay.modsetting.none.timeout" := by
  decide

/-- Claim C1 as amended: with no explicit scope override option and no
ambient scope, the registered qualified name and anchor use the scope
string `"None"` (the string form of the absent scope value) — the
literal `"none"` fallback in the source is unreachable because
`handle_signature` always stores the (possibly null) scope attribute
before `add_target_and_index` reads it. -/
theorem missing_scope_registers_None_literal (sig docname : String) (objs : List ObjEntry) :
    ModuleSettingDirective.process none none sig docname objs
      = objs ++ [⟨"overlay.modsetting.None." ++ sig, sig, "modsetting", docname,
                  "overlay-modsetting-None-" ++ sig, 0⟩]
    ∧ DBTableDirective.process none none sig docname objs
      = objs ++ [⟨"overlay.dbtable.None." ++ sig, sig, "dbtable", docname,
                  "overlay-dbtable-None-" ++ sig, 0⟩] := by
  constructor
  · simp only [ModuleSettingDirective.process, ModuleSettingDirective.add_target_and_index,
      ModuleSettingDirective.handle_signature, Option.or, Option.getD, pyStr]
    rw [show ("overlay.modsetting." ++ "None" ++ "." : String) = "overlay.modsetting.None." from by decide,
        show ("overlay-modsetting-" ++ "None" ++ "-" : String) = "overlay-modsetting-None-" from by decide]
  · simp only [DBTableDirective.process, DBTableDirective.add_target_and_index,
      DBTableDirective.handle_signature, Option.or, Option.getD, pyStr]
    rw [show ("overlay.dbtable." ++ "None" ++ "." : String) = "overlay.dbtable.None." from by decide,
        show ("overlay-dbtable-" ++ "None" ++ "-" : String) = "overlay-dbtable-None-" from by decide]

/-- Claim C2: db-table resolution splits the last dotted segment of the
target off as the table name and dot-joins the rest as the database name,
and returns the document and anchor of the first registry entry of
db-table kind whose qualified name has exactly that database name as its
second-to-last segment and that table name as its last segment; in
particular, after registering `players` under database scope `mydb`,
`"mydb.players"` resolves to that entry and `"otherdb.players"` is
unresolved. -/
theorem resolve_dbtable_split_and_match (objs : List ObjEntry) (target : String) :
    (OverlayDomain.resolve_xref objs "dbtable" target
      = (objs.find? (fun o => o.typ == "dbtable"
           && pyIdxLast2 (pySplit '.' o.name) == pyJoin "." ((pySplit '.' target).dropLast)
           && pyLast (pySplit '.' o.name) == pyLast (pySplit '.' target))).map
          (fun o => (o.docname, o.anchor)))
    ∧ (OverlayDomain.resolve_xref (DBTableDirective.process none (some "mydb") "players" "doc1" [])
          "dbtable" "mydb.players" = some ("doc1", "overlay-dbtable-mydb-players"))
    ∧ (OverlayDomain.resolve_xref (DBTableDirective.process none (some "mydb") "players" "doc1" [])
          "dbtable" "otherdb.players" = none) := by
  refine ⟨?_, by decide, by decide⟩
  simp only [OverlayDomain.resolve_xref, OverlayDomain.get_objects, if_pos rfl]
  exact head?_map_filter _ _ _

/-- Claim C6: for a non-db-table reference kind, resolution matches by
exact equality of the target with the entry's bare signature and equality
of kind, returning the first match in registry insertion order (`find?`),
and `none` — rather than an error — when nothing matches. -/
theorem resolve_signature_first_match (objs : List ObjEntry) (typ target : String)
    (h : typ ≠ "dbtable") :
    OverlayDomain.resolve_xref objs typ target
      = (objs.find? (fun o => o.sig == target && o.typ == typ)).map
          (fun o => (o.docname, o.anchor)) := by
  simp only [OverlayDomain.resolve_xref, OverlayDomain.get_objects, if_neg h]
  exact head?_map_filter _ _ _

/-- Claim C6, witness: two `event` entries with the same signature in
different documents — the first registered wins; the empty target
resolves to `none`. -/
theorem resolve_signature_first_match_witness :
    ("event" ≠ "dbtable")
    ∧ OverlayDomain.resolve_xref
        [⟨"overlay.event.boom", "boom", "event", "d1", "a1", 0⟩,
         ⟨"overlay.event.boom", "boom", "event", "d2", "a2", 0⟩] "event" "boom"
      = (([⟨"overlay.event.boom", "boom", "event", "d1", "a1", 0⟩,
           ⟨"overlay.event.boom", "boom", "event", "d2", "a2", 0⟩] : List ObjEntry).find?
          (fun o => o.sig == "boom" && o.typ == "event")).map (fun o => (o.docname, o.anchor))
    ∧ OverlayDomain.resolve_xref
        [⟨"overlay.event.boom", "boom", "event", "d1", "a1", 0⟩,
         ⟨"overlay.event.boom", "boom", "event", "d2", "a2", 0⟩] "event" "boom"
      = some ("d1", "a1")
    ∧ OverlayDomain.resolve_xref
        [⟨"overlay.event.boom", "boom", "event", "d1", "a1", 0⟩,
         ⟨"overlay.event.boom", "boom", "event", "d2", "a2", 0⟩] "event" ""
      = none :=
  ⟨by decide,
   resolve_signature_first_match
     [⟨"overlay.event.boom", "boom", "event", "d1", "a1", 0⟩,
      ⟨"overlay.event.boom", "boom", "event", "d2", "a2", 0⟩] "event" "boom" (by decide),
   by decide, by decide⟩

/-- Registry produced by the C3 directive sequence `module("net")`,
`modsetting("timeout")`, `module("None")`, `modsetting("timeout")`
processed in one document against a fresh environment. -/
def c3Registry : List ObjEntry :=
  let env0 : Env := ⟨none, none, []⟩
  let env1 := (ModuleDirective.run "net" env0).1
  let objs1 := ModuleSettingDirective.process none env1.ref_module "timeout" "doc" env1.objects
  let env2 : Env := { env1 with objects := objs1 }
  let env3 := (ModuleDirective.run "None" env2).1
  ModuleSettingDirective.process none env3.ref_module "timeout" "doc" env3.objects

/-- Claim C3, counterexample: the directive sequence registers
`overlay.modsetting.net.timeout` and `overlay.modsetting.None.timeout`;
no registered object carries the claimed qualified name
`overlay.modsetting.none.timeout`. -/
theorem scope_clear_scenario_counterexample :
    c3Registry.map ObjEntry.name
      = ["overlay.modsetting.net.timeout", "overlay.modsetting.None.timeout"]
    ∧ "overlay.modsetting.none.timeout" ∉ c3Registry.map ObjEntry.name := by
  decide

/-- Claim C3 as amended: the sequence registers exactly two distinct
objects, `net.timeout` and `None.timeout` (capital-N `"None"`, the string
form of the cleared scope, rather than `"none"`), and the module-setting
index is the single bucket `"t"` with both entries sorted ascending by
qualified name — the `None`-scoped entry first, since `'N' < 'n'`. -/
theorem scope_clear_scenario_amended :
    c3Registry.map ObjEntry.name
      = ["overlay.modsetting.net.timeout", "overlay.modsetting.None.timeout"]
    ∧ ModuleSettingIndex.generate c3Registry
      = ([("t", [⟨"timeout", 0, "doc", "overlay-modsetting-None-timeout", "doc", "", "modsetting"⟩,
                 ⟨"timeout", 0, "doc", "overlay-modsetting-net-timeout", "doc", "", "modsetting"⟩])],
         true) := by
  decide

/-- Claim C8: registering the same module-setting (or db-table) twice
raises no error (the model is total), and both entries — the duplicate
qualified name included — remain in `get_objects()` iteration, in
insertion order after the untouched earlier entries. -/
theorem duplicate_registration_appends (objs : List ObjEntry)
    (options_module ref_module : Option String) (sig docname : String) :
    ∃ e e2 : ObjEntry,
      OverlayDomain.get_objects
          (ModuleSettingDirective.process options_module ref_module sig docname
            (ModuleSettingDirective.process options_module ref_module sig docname objs))
        = OverlayDomain.get_objects objs ++ [e, e]
      ∧ OverlayDomain.get_objects
          (DBTableDirective.process options_module ref_module sig docname
            (DBTableDirective.process options_module ref_module sig docname objs))
        = OverlayDomain.get_objects objs ++ [e2, e2] := by
  refine ⟨⟨"overlay.modsetting." ++ pyStr (options_module.or ref_module) ++ "." ++ sig, sig,
            "modsetting", docname,
            "overlay-modsetting-" ++ pyStr (options_module.or ref_module) ++ "-" ++ sig, 0⟩,
          ⟨"overlay.dbtable." ++ pyStr (options_module.or ref_module) ++ "." ++ sig, sig,
            "dbtable", docname,
            "overlay-dbtable-" ++ pyStr (options_module.or ref_module) ++ "-" ++ sig, 0⟩, ?_, ?_⟩ <;>
    simp [ModuleSettingDirective.process, ModuleSettingDirective.add_target_and_index,
      ModuleSettingDirective.handle_signature,
      DBTableDirective.process, DBTableDirective.add_target_and_index,
      DBTableDirective.handle_signature, OverlayDomain.get_objects]

/-- Claim C9: a `module` or `database` scope-marker directive returns no
output nodes and leaves the registry and the other scope entry unchanged;
its only effect is to set its own scope entry to the stripped argument, or
to remove it when the argument is the sentinel `'None'` (so clearing an
already-absent scope is a no-op and raises no error). -/
theorem scope_marker_frame_effect (env : Env) (arg : String) :
    (ModuleDirective.run arg env).2 = []
    ∧ (ModuleDirective.run arg env).1.objects = env.objects
    ∧ (ModuleDirective.run arg env).1.ref_database = env.ref_database
    ∧ (ModuleDirective.run arg env).1.ref_module
        = (if pyStrip arg = "None" then none else some (pyStrip arg))
    ∧ (DBDirective.run arg env).2 = []
    ∧ (DBDirective.run arg env).1.objects = env.objects
    ∧ (DBDirective.run arg env).1.ref_module = env.ref_module
    ∧ (DBDirective.run arg env).1.ref_database
        = (if pyStrip arg = "None" then none else some (pyStrip arg)) := by
  unfold ModuleDirective.run DBDirective.run
  by_cases h : pyStrip arg = "None" <;> simp [h]

theorem splitChar_ne_nil (c : Char) : ∀ l : List Char, splitChar c l ≠ [] := by
  intro l
  induction l with
  | nil => simp [splitChar]
  | cons x xs ih =>
    simp only [splitChar]
    split
    · simp
    · cases hs : splitChar c xs with
      | nil => simp
      | cons r rs => simp

theorem splitChar_append_sep (c : Char) :
    ∀ xs ys : List Char, splitChar c (xs ++ c :: ys) = splitChar c xs ++ splitChar c ys := by
  intro xs ys
  induction xs with
  | nil => simp [splitChar]
  | cons x xs ih =>
    by_cases hx : x = c
    · subst hx
      simp [splitChar, ih]
    · simp only [List.cons_append, splitChar, if_neg hx]
      cases hs : splitChar c xs with
      | nil => exact absurd hs (splitChar_ne_nil c xs)
      | cons r rs =>
        simp only [List.append_eq]
        rw [ih, hs]
        simp

theorem splitChar_of_not_mem (c : Char) :
    ∀ l : List Char, c ∉ l → splitChar c l = [l] := by
  intro l
  induction l with
  | nil => simp [splitChar]
  | cons x xs ih =>
    intro hmem
    have hx : x ≠ c := fun h => hmem (h ▸ List.mem_cons_self x xs)
    have hxs : c ∉ xs := fun h => hmem (List.mem_cons_of_mem x h)
    simp only [splitChar, if_neg hx, ih hxs]

theorem pySplit_of_dotFree (s : String) (h : dotFree s) : pySplit '.' s = [s] := by
  simp [pySplit, splitChar_of_not_mem '.' s.data h]

theorem pySplit_qname (d s : String) (hd : dotFree d) (hs : dotFree s) :
    pySplit '.' ("overlay.dbtable." ++ d ++ "." ++ s) = ["overlay", "dbtable", d, s] := by
  have hdata : ("overlay.dbtable." ++ d ++ "." ++ s).data
      = "overlay".data ++ '.' :: ("dbtable".data ++ '.' :: (d.data ++ '.' :: s.data)) := by
    simp [String.data_append]
  simp only [pySplit, hdata]
  rw [splitChar_append_sep '.' "overlay".data,
      splitChar_append_sep '.' "dbtable".data,
      splitChar_append_sep '.' d.data,
      splitChar_of_not_mem '.' ("overlay".data) (by decide),
      splitChar_of_not_mem '.' ("dbtable".data) (by decide),
      splitChar_of_not_mem '.' d.data hd,
      splitChar_of_not_mem '.' s.data hs]
  rfl

theorem registryOf_name_shape (rs : List DBTableReg) :
    ∀ o ∈ DBTableDirective.registryOf rs,
      ∃ r ∈ rs, o.name = "overlay.dbtable." ++ pyStr (r.options_database.or r.ref_database)
        ++ "." ++ r.sig := by
  have key : ∀ (rs' : List DBTableReg) (acc : List ObjEntry) (o : ObjEntry),
      o ∈ rs'.foldl (fun objs r =>
        DBTableDirective.process r.options_database r.ref_database r.sig r.docname objs) acc →
      o ∈ acc ∨ ∃ r ∈ rs', o.name = "overlay.dbtable."
        ++ pyStr (r.options_database.or r.ref_database) ++ "." ++ r.sig := by
    intro rs'
    induction rs' with
    | nil => intro acc o h; exact Or.inl h
    | cons r rs' ih =>
      intro acc o h
      simp only [List.foldl_cons] at h
      rcases ih _ o h with hacc | ⟨r', hr', hname⟩
      · simp only [DBTableDirective.process, DBTableDirective.add_target_and_index,
          DBTableDirective.handle_signature, List.mem_append, List.mem_singleton] at hacc
        rcases hacc with h1 | h2
        · exact Or.inl h1
        · refine Or.inr ⟨r, List.mem_cons_self r rs', ?_⟩
          rw [h2]
          rfl
      · exact Or.inr ⟨r', List.mem_cons_of_mem r hr', hname⟩
  intro o ho
  rcases key rs [] o ho with h | h
  · simp at h
  · exact h

/-- Claim C10 as amended: for a registry built through the db-table
directive from declarations whose effective database scope string is
non-empty and dot-free and whose table signature is dot-free, resolving a
db-table reference whose target contains no dot always returns
unresolved — the database portion parsed from such a target is the empty
string, while each registered qualified name has that non-empty scope
string as its second-to-last segment. -/
theorem bare_target_resolve_unresolved (rs : List DBTableReg)
    (hrs : ∀ r ∈ rs, pyStr (r.options_database.or r.ref_database) ≠ ""
      ∧ dotFree (pyStr (r.options_database.or r.ref_database)) ∧ dotFree r.sig)
    (target : String) (ht : dotFree target) :
    OverlayDomain.resolve_xref (DBTableDirective.registryOf rs) "dbtable" target = none := by
  simp only [OverlayDomain.resolve_xref, OverlayDomain.get_objects, if_pos rfl]
  have hfilter : (DBTableDirective.registryOf rs).filter
      (fun o => o.typ == "dbtable"
        && pyIdxLast2 (pySplit '.' o.name) == pyJoin "." ((pySplit '.' target).dropLast)
        && pyLast (pySplit '.' o.name) == pyLast (pySplit '.' target)) = [] := by
    rw [List.filter_eq_nil_iff]
    intro o ho
    obtain ⟨r, hr, hname⟩ := registryOf_name_shape rs o ho
    obtain ⟨hne, hdf, hsf⟩ := hrs r hr
    rw [hname, pySplit_qname _ _ hdf hsf, pySplit_of_dotFree target ht]
    intro hcontra
    simp only [Bool.and_eq_true, beq_iff_eq] at hcontra
    obtain ⟨⟨-, hd⟩, -⟩ := hcontra
    apply hne
    simpa [pyIdxLast2, pyJoin, List.dropLast] using hd
  rw [hfilter]
  simp

/-- Claim C10, counterexample: the db-table directive accepts a signature
that begins with a dot, which makes the second-to-last segment of the
registered qualified name empty; a dot-free (bare) target then resolves
to that entry instead of returning unresolved. -/
theorem bare_target_resolve_counterexample :
    OverlayDomain.resolve_xref (DBTableDirective.process none (some "db") ".y" "doc" [])
        "dbtable" "y"
      = some ("doc", "overlay-dbtable-db-.y")
    ∧ OverlayDomain.resolve_xref (DBTableDirective.process none (some "db") ".y" "doc" [])
        "dbtable" "y"
      ≠ none := by
  decide

/-- Claim C10, witness: one well-formed registration (`players` under
scope `mydb`); the bare target `players` is unresolved. -/
theorem bare_target_resolve_unresolved_witness :
    (∀ r ∈ [(⟨none, some "mydb", "players", "doc"⟩ : DBTableReg)],
      pyStr (r.options_database.or r.ref_database) ≠ ""
      ∧ dotFree (pyStr (r.options_database.or r.ref_database)) ∧ dotFree r.sig)
    ∧ dotFree "players"
    ∧ OverlayDomain.resolve_xref
        (DBTableDirective.registryOf [⟨none, some "mydb", "players", "doc"⟩])
        "dbtable" "players"
      = none :=
  ⟨by decide, by decide,
   bare_target_resolve_unresolved [⟨none, some "mydb", "players", "doc"⟩] (by decide)
     "players" (by decide)⟩

theorem lexLe_total : ∀ a b : List Char, lexLe a b = true ∨ lexLe b a = true := by
  intro a
  induction a with
  | nil => intro b; left; rfl
  | cons x as ih =>
    intro b
    cases b with
    | nil => right; rfl
    | cons y bs =>
      simp only [lexLe]
      rcases Nat.lt_trichotomy x.toNat y.toNat with h | h | h
      · left; simp [h]
      · rcases ih bs with h2 | h2 <;> [left; right] <;> simp [h, h2]
      · right; simp [h]

theorem lexLe_trans :
    ∀ a b c : List Char, lexLe a b = true → lexLe b c = true → lexLe a c = true := by
  intro a
  induction a with
  | nil => intro b c _ _; rfl
  | cons x as ih =>
    intro b c hab hbc
    cases b with
    | nil => simp [lexLe] at hab
    | cons y bs =>
      cases c with
      | nil => simp [lexLe] at hbc
      | cons z cs =>
        simp only [lexLe] at hab hbc ⊢
        rcases Nat.lt_trichotomy x.toNat y.toNat with h1 | h1 | h1
        · rcases Nat.lt_trichotomy y.toNat z.toNat with h3 | h3 | h3
          · simp [Nat.lt_trans h1 h3]
          · simp [h3 ▸ h1]
          · rw [if_neg (by omega), if_pos h3] at hbc
            exact absurd hbc (by simp)
        · rcases Nat.lt_trichotomy y.toNat z.toNat with h3 | h3 | h3
          · simp [h1 ▸ h3]
          · rw [if_neg (by omega), if_neg (by omega)] at hab
            rw [if_neg (by omega), if_neg (by omega)] at hbc
            rw [if_neg (by omega), if_neg (by omega)]
            exact ih bs cs hab hbc
          · rw [if_neg (by omega), if_pos h3] at hbc
            exact absurd hbc (by simp)
        · rw [if_neg (by omega), if_pos h1] at hab
          exact absurd hab (by simp)

theorem firstKeys_mem (l : List String) (a : String) : a ∈ firstKeys l ↔ a ∈ l := by
  induction l using firstKeys.induct with
  | case1 => simp [firstKeys]
  | case2 k ks ih =>
    simp only [firstKeys, List.mem_cons, ih, List.mem_filter, bne_iff_ne]
    by_cases hak : a = k <;> simp [hak]

theorem firstKeys_nodup (l : List String) : (firstKeys l).Nodup := by
  induction l using firstKeys.induct with
  | case1 => simp [firstKeys]
  | case2 k ks ih =>
    simp only [firstKeys, List.nodup_cons, ih, and_true]
    rw [firstKeys_mem]
    simp

theorem firstKeys_append_mem (k : String) :
    ∀ l : List String, k ∈ l → firstKeys (l ++ [k]) = firstKeys l := by
  intro l
  induction l using firstKeys.induct with
  | case1 => simp
  | case2 x xs ih =>
    intro hk
    simp only [List.cons_append, firstKeys, List.filter_append]
    by_cases hkx : k = x
    · subst hkx
      simp
    · have hk2 : k ∈ xs := by
        rcases List.mem_cons.mp hk with h | h
        · exact absurd h hkx
        · exact h
      have hk3 : k ∈ xs.filter (fun k2 => k2 != x) := by
        simp [List.mem_filter, hk2, hkx]
      rw [show (List.filter (fun k2 => k2 != x) [k]) = [k] from by simp [hkx]]
      rw [ih hk3]

theorem firstKeys_append_not_mem (k : String) :
    ∀ l : List String, k ∉ l → firstKeys (l ++ [k]) = firstKeys l ++ [k] := by
  intro l
  induction l using firstKeys.induct with
  | case1 => simp [firstKeys]
  | case2 x xs ih =>
    intro hk
    have hkx : k ≠ x := fun h => hk (h ▸ List.mem_cons_self x xs)
    have hk2 : k ∉ xs := fun h => hk (List.mem_cons_of_mem x h)
    have hk3 : k ∉ xs.filter (fun k2 => k2 != x) := fun h => hk2 (List.mem_filter.mp h).1
    simp only [List.cons_append, firstKeys, List.filter_append]
    rw [show (List.filter (fun k2 => k2 != x) [k]) = [k] from by simp [hkx]]
    rw [ih hk3]

theorem addEntry_not_mem :
    ∀ (content : List (String × List IndexEntryT)) (k : String) (e : IndexEntryT),
      k ∉ content.map Prod.fst → addEntry content k e = content ++ [(k, [e])] := by
  intro content
  induction content with
  | nil => intro k e _; rfl
  | cons p rest ih =>
    intro k e hk
    obtain ⟨k', es⟩ := p
    simp only [List.map_cons, List.mem_cons] at hk
    push_neg at hk
    simp only [addEntry, if_neg (Ne.symm hk.1), List.cons_append]
    rw [ih k e hk.2]

theorem addEntry_mem :
    ∀ (pre post : List (String × List IndexEntryT)) (k : String) (es : List IndexEntryT)
      (e : IndexEntryT), k ∉ pre.map Prod.fst →
      addEntry (pre ++ (k, es) :: post) k e = pre ++ (k, es ++ [e]) :: post := by
  intro pre
  induction pre with
  | nil =>
    intro post k es e _
    simp [addEntry]
  | cons p pre ih =>
    intro post k es e hk
    obtain ⟨k', es'⟩ := p
    simp only [List.map_cons, List.mem_cons] at hk
    push_neg at hk
    simp only [List.cons_append, addEntry, if_neg (Ne.symm hk.1), List.append_eq]
    rw [ih post k es e hk.2]

/-- Buckets as the spec describes them, before sorting: one pair per
distinct bucket key in first-occurrence order, carrying the entries of the
items with that key in item order. -/
def groupsOf (key : ObjEntry → String) (ent : ObjEntry → IndexEntryT) (items : List ObjEntry) : List (String × List IndexEntryT) :=
  (firstKeys (items.map key)).map
    (fun k => (k, (items.filter (fun o => key o == k)).map ent))

theorem foldl_addEntry_eq_groupsOf (key : ObjEntry → String) (ent : ObjEntry → IndexEntryT) :
    ∀ items : List ObjEntry,
      items.foldl (fun content o => addEntry content (key o) (ent o)) [] = groupsOf key ent items := by
  intro items
  induction items using List.reverseRecOn with
  | nil => simp [groupsOf, firstKeys]
  | append_singleton its o ih =>
    rw [List.foldl_append, List.foldl_cons, List.foldl_nil, ih]
    unfold groupsOf
    rw [show List.map key (its ++ [o]) = List.map key its ++ [key o] from by simp]
    by_cases hmem : key o ∈ its.map key
    · -- the bucket for `key o` already exists
      have hmem2 : key o ∈ firstKeys (its.map key) := (firstKeys_mem _ _).mpr hmem
      obtain ⟨pre, post, hsplit⟩ := List.append_of_mem hmem2
      have hnodup : (pre ++ key o :: post).Nodup := hsplit ▸ firstKeys_nodup (its.map key)
      have hpre : key o ∉ pre := by
        rcases List.nodup_append.mp hnodup with ⟨-, -, hdisj⟩
        intro hkpre
        exact hdisj hkpre (List.mem_cons_self _ _)
      have hpost : key o ∉ post := by
        rcases List.nodup_append.mp hnodup with ⟨-, h2, -⟩
        exact (List.nodup_cons.mp h2).1
      rw [firstKeys_append_mem _ _ hmem, hsplit]
      rw [List.map_append, List.map_append, List.map_cons, List.map_cons]
      rw [addEntry_mem _ _ _ _ _ (by
        intro hc
        apply hpre
        simpa using hc)]
      congr 1
      · refine List.map_congr_left ?_
        intro k hk
        have hkne : (key o == k) = false := by
          simp only [beq_eq_false_iff_ne, ne_eq]
          intro h
          exact hpre (h ▸ hk)
        simp [List.filter_append, hkne]
      · congr 1
        · simp [List.filter_append]
        · refine List.map_congr_left ?_
          intro k hk
          have hkne : (key o == k) = false := by
            simp only [beq_eq_false_iff_ne, ne_eq]
            intro h
            exact hpost (h ▸ hk)
          simp [List.filter_append, hkne]
    · -- a new bucket is appended at the end
      have hmem2 : key o ∉ firstKeys (its.map key) := fun h => hmem ((firstKeys_mem _ _).mp h)
      rw [firstKeys_append_not_mem _ _ hmem]
      rw [addEntry_not_mem _ _ _ (by
        intro hc
        apply hmem2
        simpa using hc)]
      rw [List.map_append, List.map_singleton]
      congr 1
      · refine List.map_congr_left ?_
        intro k hk
        have hkne : (key o == k) = false := by
          simp only [beq_eq_false_iff_ne, ne_eq]
          intro h
          exact hmem2 (h ▸ hk)
        simp [List.filter_append, hkne]
      · have hfilter : its.filter (fun o2 => key o2 == key o) = [] := by
          rw [List.filter_eq_nil_iff]
          intro a ha hcontra
          exact hmem (List.mem_map.mpr ⟨a, ha, by simpa using hcontra⟩)
        simp [List.filter_append, hfilter]

theorem orderedInsert_map_fst (f : String → String × List IndexEntryT)
    (hf : ∀ x, (f x).1 = x) (a : String) :
    ∀ l : List String,
      List.orderedInsert (fun p q : String × List IndexEntryT => strLe p.1 q.1 = true) (f a) (l.map f)
        = (List.orderedInsert (fun x y : String => strLe x y = true) a l).map f := by
  intro l
  induction l with
  | nil => rfl
  | cons b l ih =>
    simp only [List.map_cons, List.orderedInsert, hf]
    by_cases h : strLe a b = true
    · rw [if_pos h, if_pos h]
      simp
    · rw [if_neg h, if_neg h, ih]
      simp

theorem insertionSort_map_fst (f : String → String × List IndexEntryT)
    (hf : ∀ x, (f x).1 = x) :
    ∀ l : List String,
      List.insertionSort (fun p q : String × List IndexEntryT => strLe p.1 q.1 = true) (l.map f)
        = (List.insertionSort (fun x y : String => strLe x y = true) l).map f := by
  intro l
  induction l with
  | nil => rfl
  | cons b l ih =>
    simp only [List.map_cons, List.insertionSort, ih]
    exact orderedInsert_map_fst f hf b _

theorem pySortedPairs_map (f : String → String × List IndexEntryT)
    (hf : ∀ x, (f x).1 = x) (l : List String) :
    pySortedPairs (l.map f) = (pySortedKeys l).map f :=
  insertionSort_map_fst f hf l

theorem generate_core (key : ObjEntry → String) (ent : ObjEntry → IndexEntryT)
    (items : List ObjEntry) :
    pySortedPairs (items.foldl (fun content o => addEntry content (key o) (ent o)) [])
      = (pySortedKeys (firstKeys (items.map key))).map
          (fun k => (k, (items.filter (fun o => key o == k)).map ent)) := by
  rw [foldl_addEntry_eq_groupsOf, groupsOf]
  exact pySortedPairs_map _ (fun x => rfl) _

/-- Claim C7: for every registry state, each index `generate` equals the
specification rendering `generateSpec` — filter to the kind, sort by
qualified name ascending, bucket by the lowercase first character of the
display name preserving that order inside each bucket, emit the buckets
with keys sorted ascending, return collapse flag `true`, and give the
db-table kind the second-to-last dot-segment of the qualified name as its
extra (`qualifier`) label while the other kinds leave it empty.  The last
two conjuncts state the sortedness facts directly: the emitted bucket
list is ascending in its keys, and the bucketed items were sorted
ascending by qualified name. -/
theorem index_generate_matches_spec (objs : List ObjEntry) :
    ModuleSettingIndex.generate objs = generateSpec "modsetting" (fun _ => "") objs
    ∧ DBTableIndex.generate objs
      = generateSpec "dbtable" (fun o => pyIdxLast2 (pySplit '.' o.name)) objs
    ∧ EventIndex.generate objs = generateSpec "event" (fun _ => "") objs
    ∧ List.Sorted (fun p q : String × List IndexEntryT => strLe p.1 q.1 = true)
        (ModuleSettingIndex.generate objs).1
    ∧ List.Sorted (fun a b : ObjEntry => strLe a.name b.name = true)
        (pySortedObjs (objs.filter (fun o => o.typ == "dbtable"))) := by
  letI hPairTotal : IsTotal (String × List IndexEntryT)
      (fun p q => strLe p.1 q.1 = true) := ⟨fun p q => lexLe_total p.1.data q.1.data⟩
  letI hPairTrans : IsTrans (String × List IndexEntryT)
      (fun p q => strLe p.1 q.1 = true) :=
    ⟨fun p q r => lexLe_trans p.1.data q.1.data r.1.data⟩
  letI hObjTotal : IsTotal ObjEntry (fun a b => strLe a.name b.name = true) :=
    ⟨fun a b => lexLe_total a.name.data b.name.data⟩
  letI hObjTrans : IsTrans ObjEntry (fun a b => strLe a.name b.name = true) :=
    ⟨fun a b c => lexLe_trans a.name.data b.name.data c.name.data⟩
  refine ⟨?_, ?_, ?_, ?_, ?_⟩
  · simp only [ModuleSettingIndex.generate, generateSpec, OverlayDomain.get_objects]
    rw [generate_core (fun o => bucketKey o.sig)
      (fun o => ⟨o.sig, 0, o.docname, o.anchor, o.docname, "", o.typ⟩)]
  · simp only [DBTableIndex.generate, generateSpec, OverlayDomain.get_objects]
    rw [generate_core (fun o => bucketKey o.sig)
      (fun o => ⟨o.sig, 0, o.docname, o.anchor, o.docname, pyIdxLast2 (pySplit '.' o.name), o.typ⟩)]
  · simp only [EventIndex.generate, generateSpec, OverlayDomain.get_objects]
    rw [generate_core (fun o => bucketKey o.sig)
      (fun o => ⟨o.sig, 0, o.docname, o.anchor, o.docname, "", o.typ⟩)]
  · exact List.sorted_insertionSort _ _
  · exact List.sorted_insertionSort _ _
